import Mathlib

/-!
Shallow embedding of `mp4dovi.go` (the 64-bit-size-aware variant): an MP4
box-tree traversal engine that patches 4-byte codec tags in place.

The file on disk is modelled as a `List Nat` of byte values together with an
absolute cursor; seeks, bounded reads and in-place writes mirror the Go
`io.ReadSeeker` / `os.File` operations.  Machine integers are modelled as
`Nat`/`Int` with explicit wrapping: `uint64` subtraction wraps modulo `2^64`
and the subsequent `int64` cast reinterprets values `≥ 2^63` as negative,
exactly as in `int64(getBoxSize(h) - getHeaderSize(h))`.

The Go `for` loops in `findHeader` and `forEachBox` can genuinely diverge
(a box whose effective size does not advance the cursor), so the loops are
given explicit fuel; `none` means the fuel ran out, `some r` is the result
the Go code produces.  Diagnostic `fmt.Printf` output (both the
`verbose`-gated traces and the unconditional per-patch notice) is modelled
as a log of `LogEntry` values carried in the file state.
-/

namespace Mp4dovi

/-- One diagnostic print emitted during traversal, mirroring the
`fmt.Printf` calls in `findHeader`, `forEachBox` and `sampleEntryHandler`. -/
inductive LogEntry where
  | findInspect (t : List Nat) (off : Int)
  | findFound (t : List Nat) (off : Int)
  | feInspect (t : List Nat) (off : Int)
  | changed (cFrom cTo : List Nat)
deriving DecidableEq, Repr

/-- The open file: its bytes, the cursor of the `os.File`, and the
diagnostic output printed so far. -/
structure FileState where
  data : List Nat
  pos : Nat
  log : List LogEntry
deriving DecidableEq, Repr

/-- I/O failures: `binary.Read` hitting end of data, or a seek to a
negative absolute offset. -/
inductive IoErr where
  | eof
  | negSeek
deriving DecidableEq, Repr

/-- The error taxonomy of the program: each constructor corresponds to one
`fmt.Errorf` site, wrapping constructors mirror `%w` wrapping. -/
inductive Err where
  | findRead (e : IoErr)
  | findSeek (e : IoErr)
  | findNotFound (t : List Nat)
  | feSeekTo (e : IoErr)
  | feRead (e : IoErr)
  | feCallback (e : Err)
  | seSeekBack (e : IoErr)
  | trakFind (t : List Nat) (e : Err)
  | trakSeek (e : IoErr)
  | trakForEach (e : Err)
  | pfSeek (e : IoErr)
  | pfFindMoov (e : Err)
  | pfForEach (e : Err)
deriving DecidableEq, Repr

/-- `Header` mirrors the Go struct: 32-bit `Size`, 4-byte `Type`, and the
64-bit `ExtendedSize` that is meaningful only when `Size == 1` (the Go zero
value `0` is kept otherwise). -/
structure Header where
  size : Nat
  type : List Nat
  extendedSize : Nat
deriving DecidableEq, Repr

/-- The box-type constants of `mp4dovi.go`, as ASCII byte lists. -/
def MoovBoxType : List Nat := [109, 111, 111, 118]

/-- ASCII bytes of `trak`. -/
def TrakBoxType : List Nat := [116, 114, 97, 107]

/-- ASCII bytes of `mdia`. -/
def MdiaBoxType : List Nat := [109, 100, 105, 97]

/-- ASCII bytes of `minf`. -/
def MinfBoxType : List Nat := [109, 105, 110, 102]

/-- ASCII bytes of `stbl`. -/
def StblBoxType : List Nat := [115, 116, 98, 108]

/-- ASCII bytes of `stsd`. -/
def StsdBoxType : List Nat := [115, 116, 115, 100]

/-- Big-endian interpretation of a byte list, as used by `binary.Read` with
`binary.BigEndian` for the 32-bit size and 64-bit extended size fields. -/
def beNat (bs : List Nat) : Nat :=
  bs.foldl (fun a b => a * 256 + b) 0

/-- Read exactly `n` bytes at the cursor; fails like `binary.Read` when
fewer than `n` bytes remain. -/
def readBytes (s : FileState) (n : Nat) : Except IoErr (List Nat × FileState) :=
  if s.pos + n ≤ s.data.length then
    .ok ((s.data.drop s.pos).take n, { s with pos := s.pos + n })
  else
    .error .eof

/-- `Seek(delta, io.SeekCurrent)`: fails iff the resulting absolute offset
would be negative. -/
def seekCur (s : FileState) (delta : Int) : Except IoErr FileState :=
  if (s.pos : Int) + delta < 0 then .error .negSeek
  else .ok { s with pos := ((s.pos : Int) + delta).toNat }

/-- `Seek(off, io.SeekStart)`: fails iff `off` is negative. -/
def seekTo (s : FileState) (off : Int) : Except IoErr FileState :=
  if off < 0 then .error .negSeek
  else .ok { s with pos := off.toNat }

/-- In-place overwrite at the cursor, like a write on an `os.File`: bytes
past the end extend the file (holes are zero-filled). -/
def writeBytes (s : FileState) (bs : List Nat) : FileState :=
  let d := s.data ++ List.replicate (s.pos - s.data.length) 0
  { s with
      data := d.take s.pos ++ bs ++ d.drop (s.pos + bs.length),
      pos := s.pos + bs.length }

/-- `getBoxSize`: the effective (uint64) box size — `ExtendedSize` when
`Size == 1`, otherwise `Size`. -/
def getBoxSize (header : Header) : Nat :=
  if header.size = 1 then header.extendedSize else header.size

/-- `getHeaderSize`: 16 for an extended header (`Size == 1`), else 8. -/
def getHeaderSize (header : Header) : Nat :=
  if header.size = 1 then 16 else 8

/-- `getHeaderTypeOffset`: the relative seek from just past the header back
to the start of the 4-byte type field. -/
def getHeaderTypeOffset (header : Header) : Int :=
  if header.size = 1 then -12 else -4

/-- Reinterpret a `uint64` value (reduced mod `2^64`) as a Go `int64`. -/
def toInt64 (n : Nat) : Int :=
  if n % 2 ^ 64 < 2 ^ 63 then ((n % 2 ^ 64 : Nat) : Int)
  else ((n % 2 ^ 64 : Nat) : Int) - 2 ^ 64

/-- Normalize an integer into the `int64` range, as Go's wrapping addition
does. -/
def wrap64 (i : Int) : Int :=
  let m := i % 2 ^ 64
  if m < 2 ^ 63 then m else m - 2 ^ 64

/-- Go `int64` addition (wraps on overflow). -/
def addInt64 (a b : Int) : Int := wrap64 (a + b)

/-- The value `int64(getBoxSize(h) - getHeaderSize(h))`: the uint64
subtraction wraps modulo `2^64` before the signed reinterpretation. -/
def skipDelta (h : Header) : Int :=
  toInt64 (getBoxSize h + (2 ^ 64 - getHeaderSize h))

/-- `readBoxHeader`: 4 bytes big-endian size, 4 bytes type, then — only when
the size field is 1 — 8 bytes big-endian extended size. -/
def readBoxHeader (s : FileState) : Except IoErr (Header × FileState) :=
  match readBytes s 4 with
  | .error e => .error e
  | .ok (szb, s1) =>
    match readBytes s1 4 with
    | .error e => .error e
    | .ok (tyb, s2) =>
      if beNat szb = 1 then
        match readBytes s2 8 with
        | .error e => .error e
        | .ok (exb, s3) => .ok ({ size := beNat szb, type := tyb, extendedSize := beNat exb }, s3)
      else
        .ok ({ size := beNat szb, type := tyb, extendedSize := 0 }, s2)

/-- Append a log entry only when `verbose` is set. -/
def logIf (v : Bool) (s : FileState) (e : LogEntry) : FileState :=
  if v then { s with log := s.log ++ [e] } else s

/-- The loop of `findHeader`: `offset` is the loop variable, `limit < 0`
means unbounded; a non-matching box is skipped by seeking forward by
`int64(getBoxSize(h) - getHeaderSize(h))`.  `none` means the fuel ran out
(the Go loop would still be running). -/
def findHeaderAux (v : Bool) (boxType : List Nat) (limit : Int) :
    Nat → Int → FileState → Option (Except Err (Header × FileState))
  | 0, _, _ => none
  | fuel + 1, offset, s =>
    if limit < 0 ∨ offset < limit then
      match readBoxHeader s with
      | .error e => some (.error (.findRead e))
      | .ok (h, s1) =>
        let s2 := logIf v s1 (.findInspect h.type offset)
        if h.type = boxType then
          some (.ok (h, logIf v s2 (.findFound h.type offset)))
        else
          match seekCur s2 (skipDelta h) with
          | .error e => some (.error (.findSeek e))
          | .ok s3 =>
            findHeaderAux v boxType limit fuel (addInt64 offset (toInt64 (getBoxSize h))) s3
    else
      some (.error (.findNotFound boxType))

/-- `findHeader`: start the scan at the current cursor with loop offset 0. -/
def findHeader (v : Bool) (boxType : List Nat) (limit : Int) (fuel : Nat)
    (s : FileState) : Option (Except Err (Header × FileState)) :=
  findHeaderAux v boxType limit fuel 0 s

/-- The loop of `forEachBox`: before each header read the cursor is
re-seeked to the absolute sibling offset; the callback runs on every header
in range. -/
def forEachBoxAux (v : Bool) (fn : Header → FileState → Option (Except Err FileState))
    (limit start : Int) :
    Nat → Int → FileState → Option (Except Err FileState)
  | 0, _, _ => none
  | fuel + 1, offset, s =>
    if limit < 0 ∨ offset < addInt64 start limit then
      match seekTo s offset with
      | .error e => some (.error (.feSeekTo e))
      | .ok s1 =>
        match readBoxHeader s1 with
        | .error e => some (.error (.feRead e))
        | .ok (h, s2) =>
          let s3 := logIf v s2 (.feInspect h.type offset)
          match fn h s3 with
          | none => none
          | some (.error e) => some (.error (.feCallback e))
          | some (.ok s4) =>
            forEachBoxAux v fn limit start fuel (addInt64 offset (toInt64 (getBoxSize h))) s4
    else
      some (.ok s)

/-- `forEachBox`: the starting offset is the current cursor (the
`Seek(0, io.SeekCurrent)` at the top of the Go function cannot fail in this
model). -/
def forEachBox (v : Bool) (fn : Header → FileState → Option (Except Err FileState))
    (limit : Int) (fuel : Nat) (s : FileState) : Option (Except Err FileState) :=
  forEachBoxAux v fn limit ((s.pos : Int)) fuel ((s.pos : Int)) s

/-- `sampleEntryHandler`: when the entry's type equals `codecFrom`, seek
back over the type field and overwrite it with the bytes of `codecTo`;
otherwise do nothing.  The per-patch notice is printed unconditionally. -/
def sampleEntryHandler (codecFrom codecTo : List Nat) (h : Header) (s : FileState) :
    Except Err FileState :=
  if h.type = codecFrom then
    match seekCur s (getHeaderTypeOffset h) with
    | .error e => .error (.seSeekBack e)
    | .ok s1 =>
      let s2 := writeBytes s1 codecTo
      .ok { s2 with log := s2.log ++ [.changed codecFrom codecTo] }
  else
    .ok s

/-- `trakHandler`: for a `trak` box, chain `findHeader` through
`mdia → minf → stbl → stsd`, each bounded by
`int64(getBoxSize(parent) - getHeaderSize(parent))`, skip the 8-byte
version/flags/entry-count prefix of `stsd`, then enumerate the sample
entries with `forEachBox` bounded by
`int64(getBoxSize(stsd) - getHeaderSize(stsd))`. -/
def trakHandler (v : Bool) (codecFrom codecTo : List Nat) (fuel : Nat)
    (trak : Header) (s : FileState) : Option (Except Err FileState) :=
  if trak.type = TrakBoxType then
    match findHeaderAux v MdiaBoxType (skipDelta trak) fuel 0 s with
    | none => none
    | some (.error e) => some (.error (.trakFind MdiaBoxType e))
    | some (.ok (h1, s1)) =>
      match findHeaderAux v MinfBoxType (skipDelta h1) fuel 0 s1 with
      | none => none
      | some (.error e) => some (.error (.trakFind MinfBoxType e))
      | some (.ok (h2, s2)) =>
        match findHeaderAux v StblBoxType (skipDelta h2) fuel 0 s2 with
        | none => none
        | some (.error e) => some (.error (.trakFind StblBoxType e))
        | some (.ok (h3, s3)) =>
          match findHeaderAux v StsdBoxType (skipDelta h3) fuel 0 s3 with
          | none => none
          | some (.error e) => some (.error (.trakFind StsdBoxType e))
          | some (.ok (h4, s4)) =>
            match seekCur s4 8 with
            | .error e => some (.error (.trakSeek e))
            | .ok s5 =>
              match forEachBox v (fun h t => some (sampleEntryHandler codecFrom codecTo h t))
                  (skipDelta h4) fuel s5 with
              | none => none
              | some (.error e) => some (.error (.trakForEach e))
              | some (.ok s6) => some (.ok s6)
  else
    some (.ok s)

/-- `processFile` on an already-open file: seek to 0, locate `moov` with an
unbounded search, then run `trakHandler` over the direct children of
`moov`. -/
def processFile (v : Bool) (codecFrom codecTo : List Nat) (fuel : Nat)
    (data : List Nat) : Option (Except Err FileState) :=
  let s0 : FileState := { data := data, pos := 0, log := [] }
  match seekTo s0 0 with
  | .error e => some (.error (.pfSeek e))
  | .ok s1 =>
    match findHeaderAux v MoovBoxType (-1) fuel 0 s1 with
    | none => none
    | some (.error e) => some (.error (.pfFindMoov e))
    | some (.ok (h, s2)) =>
      match forEachBox v (trakHandler v codecFrom codecTo fuel) (skipDelta h) fuel s2 with
      | none => none
      | some (.error e) => some (.error (.pfForEach e))
      | some (.ok s3) => some (.ok s3)

/-! ### Derived observers used to state the claims -/

/-- Equality of `Except` results is decidable componentwise; used to settle
concrete runs by evaluation. -/
instance {e a : Type} [DecidableEq e] [DecidableEq a] : DecidableEq (Except e a) := fun x y =>
  match x, y with
  | .error e1, .error e2 =>
    if h : e1 = e2 then .isTrue (by rw [h])
    else .isFalse (by intro hc; injection hc with h2; exact h h2)
  | .error _, .ok _ => .isFalse (by intro hc; exact Except.noConfusion hc)
  | .ok _, .error _ => .isFalse (by intro hc; exact Except.noConfusion hc)
  | .ok a1, .ok a2 =>
    if h : a1 = a2 then .isTrue (by rw [h])
    else .isFalse (by intro hc; injection hc with h2; exact h h2)

/-- Decode one box header from the raw bytes at absolute position `p`,
ignoring the cursor and log. -/
def decodeAt (d : List Nat) (p : Nat) : Option Header :=
  match readBoxHeader { data := d, pos := p, log := [] } with
  | .ok (h, _) => some h
  | .error _ => none

/-- Project a traversal result onto the file bytes it leaves behind. -/
def resultData : Option (Except Err FileState) → Option (Except Err (List Nat))
  | none => none
  | some (.error e) => some (.error e)
  | some (.ok s) => some (.ok s.data)

/-- Project a traversal result onto the diagnostic log it printed. -/
def resultLog : Option (Except Err FileState) → Option (List LogEntry)
  | some (.ok s) => some s.log
  | _ => none

/-- Whether a projected result is a successful run. -/
def isOkData : Option (Except Err (List Nat)) → Bool
  | some (.ok _) => true
  | _ => false

/-- The `findHeader` loop never terminates from the given loop state: every
fuel budget is exhausted. -/
def findHeaderDiverges (v : Bool) (tgt : List Nat) (limit off : Int) (s : FileState) : Prop :=
  ∀ fuel : Nat, findHeaderAux v tgt limit fuel off s = none

/-- Total effective size of a run of sibling boxes. -/
def chainSizes : List Header → Int
  | [] => 0
  | h :: rest => (getBoxSize h : Int) + chainSizes rest

/-- A run of sibling boxes laid out back to back from byte position `p`:
each header decodes from the bytes, is at least as large as its header, and
is small enough that the skip arithmetic cannot wrap. -/
def scanChainOK (d : List Nat) : Nat → List Header → Bool
  | _, [] => true
  | p, h :: rest =>
    decide (decodeAt d p = some h) &&
    decide (getHeaderSize h ≤ getBoxSize h) &&
    decide ((getBoxSize h : Int) < 2 ^ 63) &&
    scanChainOK d (p + getBoxSize h) rest

/-! ### Arithmetic lemmas about the wrapped size calculations -/

theorem toInt64_of_lt {n : Nat} (h : n < 2 ^ 63) : toInt64 n = (n : Int) := by
  unfold toInt64
  have hm : n % 2 ^ 64 = n := Nat.mod_eq_of_lt (by omega)
  rw [hm, if_pos h]

theorem wrap64_of_mem {i : Int} (h0 : 0 ≤ i) (h1 : i < 2 ^ 63) : wrap64 i = i := by
  unfold wrap64
  have hm : i % 2 ^ 64 = i := Int.emod_eq_of_lt h0 (by omega)
  simp only [hm]
  rw [if_pos h1]

theorem addInt64_of_mem {a b : Int} (ha : 0 ≤ a) (hb : 0 ≤ b) (hab : a + b < 2 ^ 63) :
    addInt64 a b = a + b := by
  unfold addInt64
  exact wrap64_of_mem (by omega) hab

theorem getHeaderSize_cases (h : Header) : getHeaderSize h = 8 ∨ getHeaderSize h = 16 := by
  unfold getHeaderSize
  split
  · exact Or.inr rfl
  · exact Or.inl rfl

/-- When the box is at least as large as its header and below `2^63`, the
wrapped skip is the plain difference. -/
theorem skipDelta_eq (h : Header) (hle : getHeaderSize h ≤ getBoxSize h)
    (hlt : getBoxSize h < 2 ^ 63) :
    skipDelta h = (getBoxSize h : Int) - (getHeaderSize h : Int) := by
  rcases getHeaderSize_cases h with h8 | h8
  · unfold skipDelta toInt64
    rw [h8] at hle ⊢
    have hmod : (getBoxSize h + (2 ^ 64 - 8)) % 2 ^ 64 = getBoxSize h - 8 := by omega
    rw [hmod, if_pos (by omega)]
    omega
  · unfold skipDelta toInt64
    rw [h8] at hle ⊢
    have hmod : (getBoxSize h + (2 ^ 64 - 16)) % 2 ^ 64 = getBoxSize h - 16 := by omega
    rw [hmod, if_pos (by omega)]
    omega

/-- When the effective size is smaller than the effective header size, the
uint64 subtraction underflows and the int64 reinterpretation is negative. -/
theorem skipDelta_neg (h : Header) (hlt : getBoxSize h < getHeaderSize h) :
    skipDelta h < 0 := by
  rcases getHeaderSize_cases h with h8 | h8
  · unfold skipDelta toInt64
    rw [h8] at hlt ⊢
    split <;> omega
  · unfold skipDelta toInt64
    rw [h8] at hlt ⊢
    split <;> omega

/-! ### Structural lemmas about the header codec and state plumbing -/

theorem logIf_eq (v : Bool) (d : List Nat) (p : Nat) (l : List LogEntry) (e : LogEntry) :
    logIf v { data := d, pos := p, log := l } e =
      { data := d, pos := p, log := if v then l ++ [e] else l } := by
  unfold logIf
  split <;> rfl

theorem readBoxHeader_log (d : List Nat) (p : Nat) (l : List LogEntry) :
    readBoxHeader { data := d, pos := p, log := l } =
      match readBoxHeader { data := d, pos := p, log := [] } with
      | .error e => .error e
      | .ok (h, s) => .ok (h, { data := s.data, pos := s.pos, log := l }) := by
  by_cases h1 : p + 4 ≤ d.length
  · by_cases h2 : p + 4 + 4 ≤ d.length
    · by_cases h3 : beNat ((d.drop p).take 4) = 1
      · by_cases h4 : p + 4 + 4 + 8 ≤ d.length <;>
          simp [readBoxHeader, readBytes, h1, h2, h3, h4]
      · simp [readBoxHeader, readBytes, h1, h2, h3]
    · simp [readBoxHeader, readBytes, h1, h2]
  · simp [readBoxHeader, readBytes, h1]

theorem readBoxHeader_ok (d : List Nat) (p : Nat) (l : List LogEntry) (h : Header)
    (s1 : FileState) (hr : readBoxHeader { data := d, pos := p, log := l } = .ok (h, s1)) :
    s1 = { data := d, pos := p + getHeaderSize h, log := l } ∧ p + getHeaderSize h ≤ d.length := by
  by_cases h1 : p + 4 ≤ d.length
  · by_cases h2 : p + 4 + 4 ≤ d.length
    · by_cases h3 : beNat ((d.drop p).take 4) = 1
      · by_cases h4 : p + 4 + 4 + 8 ≤ d.length
        · simp only [readBoxHeader, readBytes, if_pos h1, if_pos h2, if_pos h3, if_pos h4] at hr
          simp only [Except.ok.injEq, Prod.mk.injEq] at hr
          obtain ⟨hh, hs⟩ := hr
          subst hh
          subst hs
          simp only [getHeaderSize, if_pos h3, FileState.mk.injEq, true_and, and_true]
          omega
        · simp only [readBoxHeader, readBytes, if_pos h1, if_pos h2, if_pos h3, if_neg h4] at hr
          exact absurd hr (by simp)
      · simp only [readBoxHeader, readBytes, if_pos h1, if_pos h2, if_neg h3] at hr
        simp only [Except.ok.injEq, Prod.mk.injEq] at hr
        obtain ⟨hh, hs⟩ := hr
        subst hh
        subst hs
        simp only [getHeaderSize, if_neg h3, FileState.mk.injEq, true_and, and_true]
        omega
    · simp only [readBoxHeader, readBytes, if_pos h1, if_neg h2] at hr
      exact absurd hr (by simp)
  · simp only [readBoxHeader, readBytes, if_neg h1] at hr
    exact absurd hr (by simp)

theorem decodeAt_ok (d : List Nat) (p : Nat) (h : Header)
    (hd : decodeAt d p = some h) (l : List LogEntry) :
    readBoxHeader { data := d, pos := p, log := l } =
      .ok (h, { data := d, pos := p + getHeaderSize h, log := l }) := by
  rw [readBoxHeader_log d p l]
  unfold decodeAt at hd
  cases hrb : readBoxHeader { data := d, pos := p, log := [] } with
  | error e => rw [hrb] at hd; simp at hd
  | ok pr =>
    obtain ⟨h2, s2⟩ := pr
    rw [hrb] at hd
    simp only [Option.some.injEq] at hd
    subst hd
    obtain ⟨hs, -⟩ := readBoxHeader_ok d p [] h2 s2 hrb
    subst hs
    rfl

theorem decodeAt_le (d : List Nat) (p : Nat) (h : Header) (hd : decodeAt d p = some h) :
    p + getHeaderSize h ≤ d.length := by
  exact (readBoxHeader_ok d p [] h _ (decodeAt_ok d p h hd [])).2

theorem seekCur_ok (d : List Nat) (q : Nat) (l : List LogEntry) (delta : Int) (t : Nat)
    (ht : (q : Int) + delta = (t : Int)) :
    seekCur { data := d, pos := q, log := l } delta = .ok { data := d, pos := t, log := l } := by
  simp only [seekCur]
  rw [if_neg (by omega)]
  simp only [Except.ok.injEq, FileState.mk.injEq, true_and, and_true]
  omega

theorem chainSizes_nonneg (c : List Header) : 0 ≤ chainSizes c := by
  induction c with
  | nil => simp [chainSizes]
  | cons h rest ih =>
    simp only [chainSizes]
    have := Int.ofNat_nonneg (getBoxSize h)
    omega

/-! ### Concrete inputs used by the claims -/

/-- An 8-byte region holding a single box whose 32-bit size field is 0
(type `free`): its effective size does not advance the scan. -/
def sizeZeroFile : List Nat := [0, 0, 0, 0, 102, 114, 101, 101]

/-- A 16-byte region holding one well-formed 16-byte `free` box. -/
def oneFreeBox : List Nat := [0, 0, 0, 16, 102, 114, 101, 101, 0, 0, 0, 0, 0, 0, 0, 0]

/-- The header of the box in `oneFreeBox`. -/
def freeHdr : Header := { size := 16, type := [102, 114, 101, 101], extendedSize := 0 }

/-- An extended-size header used to instantiate the 64-bit-size claims. -/
def extHdr : Header := { size := 1, type := [102, 114, 101, 101], extendedSize := 4096 }

/-! ### C3: 64-bit extended sizes drive the sibling-skip arithmetic -/

/-- C3 (confirmed): when a box's 32-bit size field is 1, its effective size
is the 64-bit extended size `S` and its effective header size is 16, and the
sibling-skip seek `int64(getBoxSize - getHeaderSize)` moves the cursor from
just past the 16-byte header to exactly `S` bytes past the header start —
the arithmetic uses `S`, not the literal 1. -/
theorem c3_extended_size_arith (h : Header) (hsz : h.size = 1)
    (hlo : 16 ≤ h.extendedSize) (hhi : h.extendedSize < 2 ^ 63) :
    getBoxSize h = h.extendedSize ∧ getHeaderSize h = 16 ∧
    skipDelta h = (h.extendedSize : Int) - 16 ∧
    ∀ (d : List Nat) (l : List LogEntry) (p : Nat),
      seekCur { data := d, pos := p + 16, log := l } (skipDelta h) =
        .ok { data := d, pos := p + h.extendedSize, log := l } := by
  have hbs : getBoxSize h = h.extendedSize := by unfold getBoxSize; rw [if_pos hsz]
  have hhs : getHeaderSize h = 16 := by unfold getHeaderSize; rw [if_pos hsz]
  have hsd : skipDelta h = (h.extendedSize : Int) - 16 := by
    have h0 := skipDelta_eq h (by omega) (by omega)
    rw [hbs, hhs] at h0
    exact_mod_cast h0
  refine ⟨hbs, hhs, hsd, fun d l p => ?_⟩
  rw [hsd]
  exact seekCur_ok d (p + 16) l _ (p + h.extendedSize) (by push_cast; omega)

/-- C3 witness: the theorem applied to a concrete extended header of
extended size 4096. -/
theorem c3_extended_size_arith_apply :
    getBoxSize extHdr = extHdr.extendedSize ∧ getHeaderSize extHdr = 16 ∧
    skipDelta extHdr = (extHdr.extendedSize : Int) - 16 ∧
    ∀ (d : List Nat) (l : List LogEntry) (p : Nat),
      seekCur { data := d, pos := p + 16, log := l } (skipDelta extHdr) =
        .ok { data := d, pos := p + extHdr.extendedSize, log := l } :=
  c3_extended_size_arith extHdr rfl (by decide) (by decide)

/-! ### C4: the patch seek lands exactly on the 4-byte type field -/

/-- C4 (confirmed): on a matching sample entry with its header starting at
byte `p` and the cursor just past the header (`p + 8` or `p + 16`), the
patcher's backward seek of `-4` (standard) or `-12` (extended) lands at
`p + 4`, the start of the 4-byte type field, and the handler overwrites
exactly bytes `[p+4, p+8)` with the 4-byte destination tag, leaving the
size field `[p, p+4)` and any extended-size field `[p+8, p+16)` (and every
other byte) unchanged. -/
theorem c4_type_field_patch (codecFrom codecTo : List Nat) (h : Header) (d : List Nat)
    (l : List LogEntry) (p : Nat)
    (hm : h.type = codecFrom) (hlen : codecTo.length = 4) (hb : p + 8 ≤ d.length) :
    getHeaderTypeOffset h = (if h.size = 1 then (-12 : Int) else -4) ∧
    seekCur { data := d, pos := p + getHeaderSize h, log := l } (getHeaderTypeOffset h) =
      .ok { data := d, pos := p + 4, log := l } ∧
    sampleEntryHandler codecFrom codecTo h { data := d, pos := p + getHeaderSize h, log := l } =
      .ok { data := d.take (p + 4) ++ codecTo ++ d.drop (p + 8),
            pos := p + 8,
            log := l ++ [.changed codecFrom codecTo] } := by
  have hseek : seekCur { data := d, pos := p + getHeaderSize h, log := l }
      (getHeaderTypeOffset h) = .ok { data := d, pos := p + 4, log := l } := by
    unfold getHeaderSize getHeaderTypeOffset
    by_cases h1 : h.size = 1
    · rw [if_pos h1, if_pos h1]
      exact seekCur_ok d (p + 16) l (-12) (p + 4) (by push_cast; omega)
    · rw [if_neg h1, if_neg h1]
      exact seekCur_ok d (p + 8) l (-4) (p + 4) (by push_cast; omega)
  refine ⟨rfl, hseek, ?_⟩
  unfold sampleEntryHandler
  rw [if_pos hm, hseek]
  have h0 : p + 4 - d.length = 0 := by omega
  simp only [writeBytes, h0, List.replicate_zero, List.append_nil, hlen]

/-- C4 witness: the theorem applied to a concrete extended-header entry in
a 16-byte buffer. -/
theorem c4_type_field_patch_apply :
    getHeaderTypeOffset extHdr = (if extHdr.size = 1 then (-12 : Int) else -4) ∧
    seekCur { data := oneFreeBox, pos := 0 + getHeaderSize extHdr, log := [] }
        (getHeaderTypeOffset extHdr) =
      .ok { data := oneFreeBox, pos := 0 + 4, log := [] } ∧
    sampleEntryHandler [102, 114, 101, 101] StsdBoxType extHdr
        { data := oneFreeBox, pos := 0 + getHeaderSize extHdr, log := [] } =
      .ok { data := oneFreeBox.take (0 + 4) ++ StsdBoxType ++ oneFreeBox.drop (0 + 8),
            pos := 0 + 8,
            log := [] ++ [.changed [102, 114, 101, 101] StsdBoxType] } :=
  c4_type_field_patch [102, 114, 101, 101] StsdBoxType extHdr oneFreeBox [] 0
    (by decide) (by decide) (by decide)

/-! ### C6: non-matching entries are untouched and produce no error -/

/-- C6 (confirmed): when a sample entry's type differs from the configured
source tag, the patcher writes nothing and returns the state unchanged with
no error. -/
theorem c6_nonmatching_noop (codecFrom codecTo : List Nat) (h : Header) (s : FileState)
    (hne : h.type ≠ codecFrom) :
    sampleEntryHandler codecFrom codecTo h s = .ok s := by
  unfold sampleEntryHandler
  rw [if_neg hne]

/-- C6 witness: a `free`-typed entry is untouched under the default tags. -/
theorem c6_nonmatching_noop_apply :
    sampleEntryHandler [100, 118, 104, 101] [100, 118, 104, 49] freeHdr
        { data := oneFreeBox, pos := 8, log := [] } =
      .ok { data := oneFreeBox, pos := 8, log := [] } :=
  c6_nonmatching_noop [100, 118, 104, 101] [100, 118, 104, 49] freeHdr
    { data := oneFreeBox, pos := 8, log := [] } (by decide)

/-! ### C8: the patch writes `len(codecTo)` bytes; tag lengths are never
validated -/

/-- C8 (confirmed): on a match the handler writes exactly
`codecTo.length` bytes starting at the type-field offset `p + 4` — the
4-byte guarantee holds only when `codecTo` has length 4 — and a source tag
whose length is not 4 can never match a 4-byte entry type, so no length
validation ever rejects a configuration. -/
theorem c8_write_length_unchecked (codecFrom codecTo : List Nat) (h : Header) (d : List Nat)
    (l : List LogEntry) (p : Nat)
    (hm : h.type = codecFrom) (hb : p + 4 + codecTo.length ≤ d.length) :
    sampleEntryHandler codecFrom codecTo h { data := d, pos := p + getHeaderSize h, log := l } =
      .ok { data := d.take (p + 4) ++ codecTo ++ d.drop (p + 4 + codecTo.length),
            pos := p + 4 + codecTo.length,
            log := l ++ [.changed codecFrom codecTo] } ∧
    (∀ (cf : List Nat) (h2 : Header) (s2 : FileState),
      cf.length ≠ 4 → h2.type.length = 4 → sampleEntryHandler cf codecTo h2 s2 = .ok s2) := by
  constructor
  · have hseek : seekCur { data := d, pos := p + getHeaderSize h, log := l }
        (getHeaderTypeOffset h) = .ok { data := d, pos := p + 4, log := l } := by
      unfold getHeaderSize getHeaderTypeOffset
      by_cases h1 : h.size = 1
      · rw [if_pos h1, if_pos h1]
        exact seekCur_ok d (p + 16) l (-12) (p + 4) (by push_cast; omega)
      · rw [if_neg h1, if_neg h1]
        exact seekCur_ok d (p + 8) l (-4) (p + 4) (by push_cast; omega)
    unfold sampleEntryHandler
    rw [if_pos hm, hseek]
    have h0 : p + 4 - d.length = 0 := by omega
    simp only [writeBytes, h0, List.replicate_zero, List.append_nil]
  · intro cf h2 s2 hcf hh2
    have hne2 : h2.type ≠ cf := by
      intro he
      apply hcf
      rw [← he]
      exact hh2
    unfold sampleEntryHandler
    rw [if_neg hne2]

/-- C8 witness: a 2-byte destination tag writes exactly 2 bytes, and a
5-byte source tag never matches. -/
theorem c8_write_length_unchecked_apply :
    sampleEntryHandler [102, 114, 101, 101] [65, 66] freeHdr
        { data := oneFreeBox, pos := 0 + getHeaderSize freeHdr, log := [] } =
      .ok { data := oneFreeBox.take (0 + 4) ++ [65, 66] ++ oneFreeBox.drop (0 + 4 + 2),
            pos := 0 + 4 + 2,
            log := [] ++ [.changed [102, 114, 101, 101] [65, 66]] } ∧
    (∀ (cf : List Nat) (h2 : Header) (s2 : FileState),
      cf.length ≠ 4 → h2.type.length = 4 → sampleEntryHandler cf [65, 66] h2 s2 = .ok s2) :=
  c8_write_length_unchecked [102, 114, 101, 101] [65, 66] freeHdr oneFreeBox [] 0
    (by decide) (by decide)

/-! ### C9: undersized boxes make the skip negative; a size-0 box diverges -/

/-- C9 (confirmed): whenever a header's effective size is smaller than its
effective header size (for example a 32-bit size field of 0, or of 2..7),
the uint64 skip `getBoxSize - getHeaderSize` underflows and its int64
reinterpretation is negative, so the sibling-skip seek moves the cursor
backward; and `findHeader` with a negative (unbounded) limit never
terminates on a region starting with a size-0 box that is not the target. -/
theorem c9_size_underflow (h : Header) (hlt : getBoxSize h < getHeaderSize h) :
    skipDelta h < 0 ∧
    findHeaderDiverges false MoovBoxType (-1) 0
      { data := sizeZeroFile, pos := 0, log := [] } := by
  refine ⟨skipDelta_neg h hlt, ?_⟩
  intro fuel
  induction fuel with
  | zero => rfl
  | succ n ih =>
    have hstep : findHeaderAux false MoovBoxType (-1) (n + 1) 0
        { data := sizeZeroFile, pos := 0, log := [] } =
      findHeaderAux false MoovBoxType (-1) n 0
        { data := sizeZeroFile, pos := 0, log := [] } := rfl
    rw [hstep, ih]

/-- C9 witness: the theorem applied to the size-0 header itself. -/
theorem c9_size_underflow_apply :
    skipDelta { size := 0, type := [102, 114, 101, 101], extendedSize := 0 } < 0 ∧
    findHeaderDiverges false MoovBoxType (-1) 0
      { data := sizeZeroFile, pos := 0, log := [] } :=
  c9_size_underflow { size := 0, type := [102, 114, 101, 101], extendedSize := 0 } (by decide)

/-! ### C5: bounded search termination -/

/-- C5 counterexample: the claim quantifies over every byte range with no
box of the target type, but on an 8-byte range holding a single box whose
32-bit size field is 0 (and whose type is not the target), `findHeader`
with the non-negative limit 16 never terminates: the loop re-reads the same
header forever because the skip seek moves the cursor back to where it
started and the loop offset never advances toward the limit. -/
theorem c5_bounded_search_nontermination :
    findHeaderDiverges false MoovBoxType 16 0
      { data := sizeZeroFile, pos := 0, log := [] } := by
  intro fuel
  induction fuel with
  | zero => rfl
  | succ n ih =>
    have hstep : findHeaderAux false MoovBoxType 16 (n + 1) 0
        { data := sizeZeroFile, pos := 0, log := [] } =
      findHeaderAux false MoovBoxType 16 n 0
        { data := sizeZeroFile, pos := 0, log := [] } := rfl
    rw [hstep, ih]

/-- C5 as amended (corrected): over a byte range tiled by boxes none of
which is the target type, each at least as large as its own header (so the
skip arithmetic cannot underflow) and with offsets staying below `2^63`,
`findHeader` with a non-negative limit `L ≤` the total size of the boxes
terminates within one loop iteration per box and returns the
"cannot find box" error. -/
theorem c5_bounded_search_terminates (v : Bool) (tgt : List Nat) (d : List Nat)
    (chain : List Header) :
    ∀ (off L : Int) (p : Nat) (l : List LogEntry),
    scanChainOK d p chain = true →
    (∀ h ∈ chain, h.type ≠ tgt) →
    0 ≤ L → 0 ≤ off →
    L ≤ off + chainSizes chain →
    off + chainSizes chain < 2 ^ 63 →
    findHeaderAux v tgt L (chain.length + 1) off { data := d, pos := p, log := l } =
      some (.error (.findNotFound tgt)) := by
  induction chain with
  | nil =>
    intro off L p l _ _ hL0 hoff hLle _
    simp only [chainSizes, add_zero] at hLle
    simp only [List.length_nil, zero_add, findHeaderAux]
    rw [if_neg (by omega)]
  | cons h rest ih =>
    intro off L p l hchain hmiss hL0 hoff hLle hnw
    simp only [scanChainOK, Bool.and_eq_true, decide_eq_true_eq] at hchain
    obtain ⟨⟨⟨hdec, hle⟩, hlt⟩, hrest⟩ := hchain
    have hltn : getBoxSize h < 2 ^ 63 := by exact_mod_cast hlt
    simp only [chainSizes] at hLle hnw
    have hrest0 := chainSizes_nonneg rest
    by_cases hcond : off < L
    · simp only [List.length_cons]
      rw [show rest.length + 1 + 1 = (rest.length + 1) + 1 from rfl]
      rw [findHeaderAux]
      rw [if_pos (Or.inr hcond)]
      rw [decodeAt_ok d p h hdec l]
      simp only [logIf_eq]
      rw [if_neg (hmiss h (List.mem_cons_self h rest))]
      rw [skipDelta_eq h hle hltn]
      rw [seekCur_ok d (p + getHeaderSize h) _ _ (p + getBoxSize h) (by push_cast; omega)]
      rw [toInt64_of_lt hltn]
      rw [addInt64_of_mem hoff (Int.ofNat_nonneg _) (by omega)]
      exact ih (off + getBoxSize h) L (p + getBoxSize h) _ hrest
        (fun h2 hmem => hmiss h2 (List.mem_cons_of_mem h hmem))
        hL0 (by omega) (by omega) (by omega)
    · simp only [List.length_cons]
      rw [show rest.length + 1 + 1 = (rest.length + 1) + 1 from rfl]
      rw [findHeaderAux]
      rw [if_neg (by omega)]

/-- C5 witness: the amended theorem applied to a 16-byte range holding one
`free` box, limit 16: the search fails with "cannot find box" after one
iteration. -/
theorem c5_bounded_search_terminates_apply :
    findHeaderAux false MoovBoxType 16 2 0 { data := oneFreeBox, pos := 0, log := [] } =
      some (.error (.findNotFound MoovBoxType)) := by
  have h0 := c5_bounded_search_terminates false MoovBoxType oneFreeBox [freeHdr] 0 16 0 []
    (by decide) (by decide) (by decide) (by decide) (by decide) (by decide)
  simpa using h0

/-! ### C1 / C2: the sample-entry enumeration overshoots the stsd box

`trakHandler` passes `int64(getBoxSize(stsd) - getHeaderSize(stsd))` as the
`forEachBox` limit after already seeking 8 bytes into the stsd body, without
subtracting those 8 bytes, so the enumeration bound lies 8 bytes past the
end of the stsd box and `forEachBox` reads one more "header" at the stsd
end. -/

/-- Default source tag `dvhe`. -/
def DvheTag : List Nat := [100, 118, 104, 101]

/-- Default destination tag `dvh1`. -/
def Dvh1Tag : List Nat := [100, 118, 104, 49]

/-- An 88-byte file: `moov(88) > trak(80) > mdia(72) > minf(64) > stbl(56)
> stsd(32 at byte 40, one 16-byte dvhe entry at byte 56)`, followed inside
`stbl` by a second 16-byte `dvhe`-typed sibling box at byte 72 — exactly at
the end of the stsd box, i.e. outside it. -/
def overshootFile : List Nat :=
  [0, 0, 0, 88, 109, 111, 111, 118,
   0, 0, 0, 80, 116, 114, 97, 107,
   0, 0, 0, 72, 109, 100, 105, 97,
   0, 0, 0, 64, 109, 105, 110, 102,
   0, 0, 0, 56, 115, 116, 98, 108,
   0, 0, 0, 32, 115, 116, 115, 100,
   0, 0, 0, 0, 0, 0, 0, 1,
   0, 0, 0, 16, 100, 118, 104, 101, 0, 0, 0, 0, 0, 0, 0, 0,
   0, 0, 0, 16, 100, 118, 104, 101, 0, 0, 0, 0, 0, 0, 0, 0]

/-- C1 (code bug): on `overshootFile` with the default tags, processing
succeeds but rewrites two 4-byte regions: bytes 60..64 (the type of the one
genuine sample entry, inside the stsd box which spans bytes 40..72) and
bytes 76..80 — the type field of the sibling box that starts at byte 72,
the very end of the stsd box, which is not a sample entry.  A byte outside
the matched sample entries' type fields therefore differs after
processing, contradicting the exact-patch property. -/
theorem c1_eval_patch_outside_entries :
    resultData (processFile false DvheTag Dvh1Tag 20 overshootFile) =
      some (.ok (overshootFile.take 60 ++ Dvh1Tag ++
        ((overshootFile.drop 64).take 12 ++ (Dvh1Tag ++ overshootFile.drop 80)))) ∧
    decodeAt overshootFile 40 = some { size := 32, type := StsdBoxType, extendedSize := 0 } ∧
    (overshootFile.drop 76).take 4 = DvheTag := by
  decide

/-- The diagnostic log of the verbose run on `overshootFile`. -/
def overshootLog : List LogEntry :=
  [.findInspect MoovBoxType 0, .findFound MoovBoxType 0,
   .feInspect TrakBoxType 8,
   .findInspect MdiaBoxType 0, .findFound MdiaBoxType 0,
   .findInspect MinfBoxType 0, .findFound MinfBoxType 0,
   .findInspect StblBoxType 0, .findFound StblBoxType 0,
   .findInspect StsdBoxType 0, .findFound StsdBoxType 0,
   .feInspect DvheTag 56, .changed DvheTag Dvh1Tag,
   .feInspect DvheTag 72, .changed DvheTag Dvh1Tag]

/-- C2 (code bug): on `overshootFile` the sample-entry enumeration inspects
a header at absolute offset 72, which is exactly the end of the stsd box
(the stsd header at byte 40 declares size 32), so `forEachBox` does read a
header at the end of the sample-description box rather than strictly
inside its body. -/
theorem c2_eval_callback_at_stsd_end :
    resultLog (processFile true DvheTag Dvh1Tag 20 overshootFile) = some overshootLog ∧
    LogEntry.feInspect DvheTag 72 ∈ overshootLog ∧
    decodeAt overshootFile 40 = some { size := 32, type := StsdBoxType, extendedSize := 0 } := by
  decide

/-! ### C7: idempotence fails on adversarial size fields -/

/-- The tag `AAAA`, used as the source tag of the aliasing counterexample. -/
def AFourTag : List Nat := [65, 65, 65, 65]

/-- A 168-byte file crafted so that the first run's patches alias bytes the
second run reads as structure: `mdia` holds a decoy box typed `AAAA` at
byte 24 (whose body hides a complete `stbl > stsd > AAAA-entry` chain),
followed by the real `minf` at byte 88.  The stsd entry list of the real
`minf` holds one `AAAA` entry and one extended-size header whose 64-bit
size is `2^64 - 112`, so the enumeration offset jumps backward to byte 24
and the handler rewrites the decoy's type `AAAA` to the destination tag. -/
def aliasFile : List Nat :=
  [0, 0, 0, 168, 109, 111, 111, 118,
   0, 0, 0, 160, 116, 114, 97, 107,
   0, 0, 0, 152, 109, 100, 105, 97,
   0, 0, 0, 64, 65, 65, 65, 65,
   0, 0, 0, 40, 115, 116, 98, 108,
   0, 0, 0, 32, 115, 116, 115, 100,
   0, 0, 0, 0, 0, 0, 0, 1,
   0, 0, 0, 16, 65, 65, 65, 65, 0, 0, 0, 0, 0, 0, 0, 0,
   0, 0, 0, 16, 102, 114, 101, 101, 0, 0, 0, 0, 0, 0, 0, 0,
   0, 0, 0, 80, 109, 105, 110, 102,
   0, 0, 0, 56, 115, 116, 98, 108,
   0, 0, 0, 48, 115, 116, 115, 100,
   0, 0, 0, 0, 0, 0, 0, 1,
   0, 0, 0, 16, 65, 65, 65, 65, 0, 0, 0, 0, 0, 0, 0, 0,
   0, 0, 0, 1, 90, 90, 90, 90, 255, 255, 255, 255, 255, 255, 255, 144,
   0, 0, 0, 16, 102, 114, 101, 101, 0, 0, 0, 0, 0, 0, 0, 0]

/-- The file bytes after one run on `aliasFile` with tags `AAAA → minf`. -/
def aliasOnce : Option (Except Err (List Nat)) :=
  resultData (processFile false AFourTag MinfBoxType 30 aliasFile)

/-- The file bytes after a second run on the output of `aliasOnce`. -/
def aliasTwice : Option (Except Err (List Nat)) :=
  match aliasOnce with
  | some (.ok d) => resultData (processFile false AFourTag MinfBoxType 30 d)
  | _ => none

set_option maxRecDepth 4000 in
/-- C7 counterexample: with destination tag (`minf`) different from source
tag (`AAAA`), both runs on `aliasFile` succeed, yet the second run changes
the file again (it patches the `AAAA` entry hidden inside the decoy box,
which the second traversal reaches because the first run turned the decoy's
type into `minf`).  Processing twice is not the same as processing once. -/
theorem c7_second_run_changes_file :
    AFourTag ≠ MinfBoxType ∧ isOkData aliasOnce = true ∧ isOkData aliasTwice = true ∧
    aliasTwice ≠ aliasOnce := by
  decide

/-! ### Byte-level patching: segment lemmas for in-range overwrites -/

/-- Overwrite the bytes `[q, q + w.length)` of `d` with `w` (the pure-data
core of `writeBytes` for an in-range write). -/
def writeAt (d : List Nat) (q : Nat) (w : List Nat) : List Nat :=
  d.take q ++ w ++ d.drop (q + w.length)

theorem writeAt_length (d w : List Nat) (q : Nat) (hq : q + w.length ≤ d.length) :
    (writeAt d q w).length = d.length := by
  simp only [writeAt, List.length_append, List.length_take, List.length_drop]
  omega

theorem writeAt_drop_ge (d w : List Nat) (q p : Nat) (hqd : q ≤ d.length)
    (hp : q + w.length ≤ p) :
    (writeAt d q w).drop p = d.drop p := by
  have h1 : writeAt d q w = (d.take q ++ w) ++ d.drop (q + w.length) := by
    simp [writeAt, List.append_assoc]
  have h2 : (d.take q ++ w).length = q + w.length := by
    simp only [List.length_append, List.length_take]
    omega
  rw [h1, List.drop_append_eq_append_drop, h2,
    List.drop_eq_nil_of_le (by omega), List.nil_append, List.drop_drop]
  congr 1
  omega

theorem writeAt_take_q (d w : List Nat) (q : Nat) (hq : q ≤ d.length) :
    (writeAt d q w).take q = d.take q := by
  have h1 : writeAt d q w = d.take q ++ (w ++ d.drop (q + w.length)) := by
    simp [writeAt, List.append_assoc]
  have h2 : (d.take q).length = q := by
    simp only [List.length_take]
    omega
  rw [h1, List.take_append_eq_append_take, h2]
  simp [List.take_take]

theorem writeAt_seg_lt (d w : List Nat) (q p n : Nat) (hqd : q ≤ d.length)
    (hpn : p + n ≤ q) :
    ((writeAt d q w).drop p).take n = (d.drop p).take n := by
  have e1 : ∀ x : List Nat, (x.take (q - p)).take n = x.take n := by
    intro x
    rw [List.take_take]
    congr 1
    omega
  have h2 : ((writeAt d q w).take q).drop p = (d.take q).drop p := by
    rw [writeAt_take_q d w q hqd]
  rw [List.drop_take, List.drop_take] at h2
  rw [← e1 ((writeAt d q w).drop p), ← e1 (d.drop p), h2]

theorem writeAt_seg_self (d w : List Nat) (q : Nat) (hq : q + w.length ≤ d.length) :
    ((writeAt d q w).drop q).take w.length = w := by
  have h1 : writeAt d q w = d.take q ++ (w ++ d.drop (q + w.length)) := by
    simp [writeAt, List.append_assoc]
  have h2 : (d.take q).length = q := by
    simp only [List.length_take]
    omega
  rw [h1, List.drop_append_eq_append_drop, h2,
    List.drop_eq_nil_of_le (by omega), List.nil_append, Nat.sub_self, List.drop_zero]
  exact List.take_left w _

/-! ### Characterization of decoding in terms of byte segments -/

theorem decodeAt_elim (d : List Nat) (p : Nat) (h : Header) (hd : decodeAt d p = some h) :
    h.size = beNat ((d.drop p).take 4) ∧
    h.type = (d.drop (p + 4)).take 4 ∧
    p + 8 ≤ d.length ∧
    (if h.size = 1 then
        h.extendedSize = beNat ((d.drop (p + 8)).take 8) ∧ p + 16 ≤ d.length
      else h.extendedSize = 0) := by
  have e48 : p + 4 + 4 = p + 8 := by omega
  by_cases h1 : p + 4 ≤ d.length
  · by_cases h2 : p + 4 + 4 ≤ d.length
    · by_cases h3 : beNat ((d.drop p).take 4) = 1
      · by_cases h4 : p + 4 + 4 + 8 ≤ d.length
        · simp only [decodeAt, readBoxHeader, readBytes, if_pos h1, if_pos h2, if_pos h3,
            if_pos h4, Option.some.injEq] at hd
          subst hd
          rw [e48]
          refine ⟨rfl, rfl, by omega, ?_⟩
          rw [if_pos h3]
          exact ⟨rfl, by omega⟩
        · simp only [decodeAt, readBoxHeader, readBytes, if_pos h1, if_pos h2, if_pos h3,
            if_neg h4] at hd
          exact absurd hd (by simp)
      · simp only [decodeAt, readBoxHeader, readBytes, if_pos h1, if_pos h2, if_neg h3,
          Option.some.injEq] at hd
        subst hd
        refine ⟨rfl, rfl, by omega, ?_⟩
        rw [if_neg h3]
    · simp only [decodeAt, readBoxHeader, readBytes, if_pos h1, if_neg h2] at hd
      exact absurd hd (by simp)
  · simp only [decodeAt, readBoxHeader, readBytes, if_neg h1] at hd
    exact absurd hd (by simp)

theorem decodeAt_mk (d : List Nat) (p : Nat) (h : Header)
    (hsz : h.size = beNat ((d.drop p).take 4))
    (hty : h.type = (d.drop (p + 4)).take 4)
    (hlen8 : p + 8 ≤ d.length)
    (hext : if h.size = 1 then
        h.extendedSize = beNat ((d.drop (p + 8)).take 8) ∧ p + 16 ≤ d.length
      else h.extendedSize = 0) :
    decodeAt d p = some h := by
  have e48 : p + 4 + 4 = p + 8 := by omega
  have h1 : p + 4 ≤ d.length := by omega
  have h2 : p + 4 + 4 ≤ d.length := by omega
  by_cases h3 : beNat ((d.drop p).take 4) = 1
  · rw [if_pos (hsz ▸ h3 : h.size = 1)] at hext
    obtain ⟨hex, h16⟩ := hext
    have h4 : p + 4 + 4 + 8 ≤ d.length := by omega
    simp only [decodeAt, readBoxHeader, readBytes, if_pos h1, if_pos h2, if_pos h3, if_pos h4,
      Option.some.injEq]
    rw [e48]
    cases h
    simp only [Header.mk.injEq]
    simp only at hsz hty hex
    exact ⟨hsz.symm, hty.symm, hex.symm⟩
  · rw [if_neg (fun hc => h3 (hsz ▸ hc))] at hext
    simp only [decodeAt, readBoxHeader, readBytes, if_pos h1, if_pos h2, if_neg h3,
      Option.some.injEq]
    cases h
    simp only [Header.mk.injEq]
    simp only at hsz hty hext
    exact ⟨hsz.symm, hty.symm, hext.symm⟩

/-! ### Decode stability under disjoint patches -/

/-- A patch entirely below the decoded header leaves the decode unchanged. -/
theorem decodeAt_writeAt_past (d : List Nat) (p q : Nat) (w : List Nat) (h : Header)
    (hd : decodeAt d p = some h) (hq : q + w.length ≤ p) (hqd : q + w.length ≤ d.length) :
    decodeAt (writeAt d q w) p = some h := by
  obtain ⟨hsz, hty, hlen8, hext⟩ := decodeAt_elim d p h hd
  have hqd0 : q ≤ d.length := by omega
  have hdp : (writeAt d q w).drop p = d.drop p := writeAt_drop_ge d w q p hqd0 (by omega)
  have hdp4 : (writeAt d q w).drop (p + 4) = d.drop (p + 4) :=
    writeAt_drop_ge d w q (p + 4) hqd0 (by omega)
  have hdp8 : (writeAt d q w).drop (p + 8) = d.drop (p + 8) :=
    writeAt_drop_ge d w q (p + 8) hqd0 (by omega)
  have hlen : (writeAt d q w).length = d.length := writeAt_length d w q hqd
  apply decodeAt_mk
  · rw [hdp]; exact hsz
  · rw [hdp4]; exact hty
  · omega
  · rw [hdp8, hlen]; exact hext

/-- A patch entirely above the decoded header leaves the decode unchanged. -/
theorem decodeAt_writeAt_beyond (d : List Nat) (p q : Nat) (w : List Nat) (h : Header)
    (hd : decodeAt d p = some h) (hq : p + getHeaderSize h ≤ q) (hqd : q + w.length ≤ d.length) :
    decodeAt (writeAt d q w) p = some h := by
  obtain ⟨hsz, hty, hlen8, hext⟩ := decodeAt_elim d p h hd
  have hqd0 : q ≤ d.length := by omega
  have hlen : (writeAt d q w).length = d.length := writeAt_length d w q hqd
  have hhs : getHeaderSize h = 8 ∨ getHeaderSize h = 16 := getHeaderSize_cases h
  have hseg : ∀ a n : Nat, a + n ≤ p + getHeaderSize h →
      ((writeAt d q w).drop a).take n = (d.drop a).take n := by
    intro a n han
    exact writeAt_seg_lt d w q a n hqd0 (by omega)
  apply decodeAt_mk
  · rw [hseg p 4 (by omega)]; exact hsz
  · rw [hseg (p + 4) 4 (by omega)]; exact hty
  · omega
  · by_cases h1 : h.size = 1
    · have h16 : getHeaderSize h = 16 := by unfold getHeaderSize; rw [if_pos h1]
      rw [if_pos h1] at hext ⊢
      rw [hseg (p + 8) 8 (by omega), hlen]
      exact hext
    · rw [if_neg h1] at hext ⊢
      exact hext

/-- Patching a header's own 4-byte type field changes the decode to the
same header with the new type. -/
theorem decodeAt_writeAt_self (d : List Nat) (p : Nat) (w : List Nat) (h : Header)
    (hd : decodeAt d p = some h) (hw : w.length = 4) :
    decodeAt (writeAt d (p + 4) w) p = some { h with type := w } := by
  obtain ⟨hsz, hty, hlen8, hext⟩ := decodeAt_elim d p h hd
  have hqd : (p + 4) + w.length ≤ d.length := by omega
  have hqd0 : p + 4 ≤ d.length := by omega
  have hlen : (writeAt d (p + 4) w).length = d.length := writeAt_length d w (p + 4) hqd
  apply decodeAt_mk
  · rw [writeAt_seg_lt d w (p + 4) p 4 hqd0 (by omega)]
    exact hsz
  · have := writeAt_seg_self d w (p + 4) hqd
    rw [hw] at this
    rw [this]
  · omega
  · simp only
    by_cases h1 : h.size = 1
    · rw [if_pos h1] at hext ⊢
      rw [writeAt_drop_ge d w (p + 4) (p + 8) hqd0 (by omega), hlen]
      exact hext
    · rw [if_neg h1] at hext ⊢
      exact hext

/-! ### Sample-entry chains: the headers visited by one `forEachBox` run -/

/-- The headers visited by the sample-entry enumeration starting at loop
offset `off` with loop bound `bound`: each decodes from the bytes at its
offset, occupies at least its own header, keeps the loop offset below
`2^63`, and the run ends exactly when the offset reaches the bound. -/
def entryChainOK (d : List Nat) (bound : Int) : Int → List Header → Bool
  | off, [] => decide (bound ≤ off)
  | off, h :: rest =>
    decide (0 ≤ off) && decide (off < bound) &&
    decide (decodeAt d off.toNat = some h) &&
    decide (getHeaderSize h ≤ getBoxSize h) &&
    decide (off + (getBoxSize h : Int) < 2 ^ 63) &&
    entryChainOK d bound (off + (getBoxSize h : Int)) rest

/-- The bytes produced by patching every matching entry of the chain: each
entry whose type equals `codecFrom` has its 4-byte type field (at its
offset + 4) overwritten with `codecTo`. -/
def patchChain (codecFrom codecTo : List Nat) : List Nat → Int → List Header → List Nat
  | d, _, [] => d
  | d, off, h :: rest =>
    patchChain codecFrom codecTo
      (if h.type = codecFrom then writeAt d (off.toNat + 4) codecTo else d)
      (off + (getBoxSize h : Int)) rest

/-- The header as it reads back after a run: a matching type is replaced by
the destination tag. -/
def substType (codecFrom codecTo : List Nat) (h : Header) : Header :=
  if h.type = codecFrom then { h with type := codecTo } else h

/-- The sample-entry callback closure `sampleEntryHandler(rw)` as passed to
`forEachBox` by `trakHandler`. -/
def entryCb (codecFrom codecTo : List Nat) : Header → FileState → Option (Except Err FileState) :=
  fun h t => some (sampleEntryHandler codecFrom codecTo h t)

theorem substType_boxSize (codecFrom codecTo : List Nat) (h : Header) :
    getBoxSize (substType codecFrom codecTo h) = getBoxSize h := by
  unfold substType
  split <;> rfl

theorem substType_headerSize (codecFrom codecTo : List Nat) (h : Header) :
    getHeaderSize (substType codecFrom codecTo h) = getHeaderSize h := by
  unfold substType
  split <;> rfl

theorem getHeaderSize_ge_8 (h : Header) : 8 ≤ getHeaderSize h := by
  rcases getHeaderSize_cases h with h8 | h8 <;> omega

theorem seekCur_typeOffset (d : List Nat) (l : List LogEntry) (h : Header) (p : Nat) :
    seekCur { data := d, pos := p + getHeaderSize h, log := l } (getHeaderTypeOffset h) =
      .ok { data := d, pos := p + 4, log := l } := by
  unfold getHeaderSize getHeaderTypeOffset
  by_cases h1 : h.size = 1
  · rw [if_pos h1, if_pos h1]
    exact seekCur_ok d (p + 16) l (-12) (p + 4) (by push_cast; omega)
  · rw [if_neg h1, if_neg h1]
    exact seekCur_ok d (p + 8) l (-4) (p + 4) (by push_cast; omega)

theorem writeBytes_eq (d w : List Nat) (q : Nat) (l : List LogEntry) (hq : q ≤ d.length) :
    writeBytes { data := d, pos := q, log := l } w =
      { data := writeAt d q w, pos := q + w.length, log := l } := by
  have h0 : q - d.length = 0 := by omega
  simp [writeBytes, writeAt, h0]

theorem sampleEntryHandler_match (codecFrom codecTo : List Nat) (h : Header) (d : List Nat)
    (l : List LogEntry) (p : Nat) (hm : h.type = codecFrom) (hb : p + 4 ≤ d.length) :
    sampleEntryHandler codecFrom codecTo h { data := d, pos := p + getHeaderSize h, log := l } =
      .ok { data := writeAt d (p + 4) codecTo, pos := p + 4 + codecTo.length,
            log := l ++ [.changed codecFrom codecTo] } := by
  have hwb := writeBytes_eq d codecTo (p + 4) l hb
  unfold sampleEntryHandler
  rw [if_pos hm]
  simp only [seekCur_typeOffset, hwb]

/-- Chain validity is preserved by an in-range patch that lies entirely
below the remaining offsets. -/
theorem entryChainOK_writeAt (bound : Int) (w : List Nat) (q : Nat) :
    ∀ (chain : List Header) (d : List Nat) (o : Int),
    entryChainOK d bound o chain = true →
    (q + w.length : Int) ≤ o →
    q + w.length ≤ d.length →
    entryChainOK (writeAt d q w) bound o chain = true := by
  intro chain
  induction chain with
  | nil =>
    intro d o hch _ _
    simpa [entryChainOK] using hch
  | cons h rest ih =>
    intro d o hch hqo hqd
    simp only [entryChainOK, Bool.and_eq_true, decide_eq_true_eq] at hch ⊢
    obtain ⟨⟨⟨⟨⟨h0, h1⟩, h2⟩, h3⟩, h4⟩, h5⟩ := hch
    have hsz0 : (0 : Int) ≤ (getBoxSize h : Int) := Int.ofNat_nonneg _
    refine ⟨⟨⟨⟨⟨h0, h1⟩, ?_⟩, h3⟩, h4⟩, ?_⟩
    · exact decodeAt_writeAt_past d o.toNat q w h h2 (by omega) hqd
    · exact ih d (o + (getBoxSize h : Int)) h5 (by omega) hqd

/-- A decoded header lying entirely below the chain is unchanged by the
chain's patches. -/
theorem patchChain_decode_before (bound : Int) (codecFrom codecTo : List Nat)
    (hlen : codecTo.length = 4) :
    ∀ (chain : List Header) (d : List Nat) (o : Int) (pp : Nat) (hh : Header),
    entryChainOK d bound o chain = true →
    decodeAt d pp = some hh →
    (pp + getHeaderSize hh : Int) ≤ o + 4 →
    decodeAt (patchChain codecFrom codecTo d o chain) pp = some hh := by
  intro chain
  induction chain with
  | nil =>
    intro d o pp hh _ hd _
    simpa [patchChain] using hd
  | cons h rest ih =>
    intro d o pp hh hch hd hpo
    simp only [entryChainOK, Bool.and_eq_true, decide_eq_true_eq] at hch
    obtain ⟨⟨⟨⟨⟨h0, h1⟩, h2⟩, h3⟩, h4⟩, h5⟩ := hch
    have hhs8 : 8 ≤ getHeaderSize h := getHeaderSize_ge_8 h
    have hlend := decodeAt_le d o.toNat h h2
    have hsz0 : (0 : Int) ≤ (getBoxSize h : Int) := Int.ofNat_nonneg _
    simp only [patchChain]
    by_cases hm : h.type = codecFrom
    · rw [if_pos hm]
      have hd1 : decodeAt (writeAt d (o.toNat + 4) codecTo) pp = some hh :=
        decodeAt_writeAt_beyond d pp (o.toNat + 4) codecTo hh hd (by omega) (by omega)
      have hch1 := entryChainOK_writeAt bound codecTo (o.toNat + 4) rest d
        (o + (getBoxSize h : Int)) h5 (by omega) (by omega)
      exact ih (writeAt d (o.toNat + 4) codecTo) (o + (getBoxSize h : Int)) pp hh hch1 hd1
        (by omega)
    · rw [if_neg hm]
      exact ih d (o + (getBoxSize h : Int)) pp hh h5 hd (by omega)

/-- After one run, the patched bytes still carry a valid chain whose
headers are the originals with matching types replaced. -/
theorem entryChainOK_patchChain_subst (bound : Int) (codecFrom codecTo : List Nat)
    (hlen : codecTo.length = 4) :
    ∀ (chain : List Header) (d : List Nat) (o : Int),
    entryChainOK d bound o chain = true →
    entryChainOK (patchChain codecFrom codecTo d o chain) bound o
      (chain.map (substType codecFrom codecTo)) = true := by
  intro chain
  induction chain with
  | nil =>
    intro d o hch
    simpa [patchChain, entryChainOK, List.map] using hch
  | cons h rest ih =>
    intro d o hch
    simp only [entryChainOK, Bool.and_eq_true, decide_eq_true_eq] at hch
    obtain ⟨⟨⟨⟨⟨h0, h1⟩, h2⟩, h3⟩, h4⟩, h5⟩ := hch
    have hhs8 : 8 ≤ getHeaderSize h := getHeaderSize_ge_8 h
    have hlend := decodeAt_le d o.toNat h h2
    have hsz0 : (0 : Int) ≤ (getBoxSize h : Int) := Int.ofNat_nonneg _
    simp only [List.map_cons, patchChain, entryChainOK, Bool.and_eq_true, decide_eq_true_eq,
      substType_boxSize, substType_headerSize]
    by_cases hm : h.type = codecFrom
    · rw [if_pos hm]
      have hch1 := entryChainOK_writeAt bound codecTo (o.toNat + 4) rest d
        (o + (getBoxSize h : Int)) h5 (by omega) (by omega)
      have hd1 : decodeAt (writeAt d (o.toNat + 4) codecTo) o.toNat =
          some { h with type := codecTo } := by
        have := decodeAt_writeAt_self d o.toNat codecTo h h2 hlen
        exact this
      have hsub : substType codecFrom codecTo h = { h with type := codecTo } := by
        unfold substType
        rw [if_pos hm]
      refine ⟨⟨⟨⟨⟨h0, h1⟩, ?_⟩, h3⟩, h4⟩, ?_⟩
      · rw [hsub]
        exact patchChain_decode_before bound codecFrom codecTo hlen rest
          (writeAt d (o.toNat + 4) codecTo) (o + (getBoxSize h : Int)) o.toNat
          { h with type := codecTo } hch1 hd1
          (by have : getHeaderSize { h with type := codecTo } = getHeaderSize h := rfl
              omega)
      · exact ih (writeAt d (o.toNat + 4) codecTo) (o + (getBoxSize h : Int)) hch1
    · rw [if_neg hm]
      have hsub : substType codecFrom codecTo h = h := by
        unfold substType
        rw [if_neg hm]
      refine ⟨⟨⟨⟨⟨h0, h1⟩, ?_⟩, h3⟩, h4⟩, ?_⟩
      · rw [hsub]
        exact patchChain_decode_before bound codecFrom codecTo hlen rest d
          (o + (getBoxSize h : Int)) o.toNat h h5 h2 (by omega)
      · exact ih d (o + (getBoxSize h : Int)) h5

/-- A chain with no matching type patches nothing. -/
theorem patchChain_of_nomatch (codecFrom codecTo : List Nat) :
    ∀ (chain : List Header) (d : List Nat) (o : Int),
    (∀ h ∈ chain, h.type ≠ codecFrom) →
    patchChain codecFrom codecTo d o chain = d := by
  intro chain
  induction chain with
  | nil => intro d o _; rfl
  | cons h rest ih =>
    intro d o hmiss
    simp only [patchChain, if_neg (hmiss h (List.mem_cons_self h rest))]
    exact ih d (o + (getBoxSize h : Int)) (fun h2 hm => hmiss h2 (List.mem_cons_of_mem h hm))

/-- After substitution with a destination tag different from the source
tag, no header of the chain matches the source tag any more. -/
theorem substType_map_nomatch (codecFrom codecTo : List Nat) (hne : codecTo ≠ codecFrom)
    (chain : List Header) :
    ∀ h2 ∈ chain.map (substType codecFrom codecTo), h2.type ≠ codecFrom := by
  intro h2 hmem
  obtain ⟨h, hh, hsub⟩ := List.mem_map.mp hmem
  subst hsub
  unfold substType
  by_cases hm : h.type = codecFrom
  · rw [if_pos hm]
    simpa using hne
  · rw [if_neg hm]
    exact hm

/-- One run of the sample-entry enumeration over a valid chain succeeds and
produces exactly the chain's patches. -/
theorem forEachBoxAux_chain (v : Bool) (codecFrom codecTo : List Nat)
    (hlen : codecTo.length = 4) (limit start : Int) (hlim : 0 ≤ limit) :
    ∀ (chain : List Header) (off : Int) (d : List Nat) (p : Nat) (l : List LogEntry),
    entryChainOK d (addInt64 start limit) off chain = true →
    resultData (forEachBoxAux v (entryCb codecFrom codecTo) limit start (chain.length + 1) off
        { data := d, pos := p, log := l }) =
      some (.ok (patchChain codecFrom codecTo d off chain)) := by
  intro chain
  induction chain with
  | nil =>
    intro off d p l hchain
    simp only [entryChainOK, decide_eq_true_eq] at hchain
    simp only [List.length_nil, zero_add, forEachBoxAux]
    rw [if_neg (by omega)]
    rfl
  | cons h rest ih =>
    intro off d p l hchain
    simp only [entryChainOK, Bool.and_eq_true, decide_eq_true_eq] at hchain
    obtain ⟨⟨⟨⟨⟨h0, h1⟩, h2⟩, h3⟩, h4⟩, h5⟩ := hchain
    have hhs8 : 8 ≤ getHeaderSize h := getHeaderSize_ge_8 h
    have hlend := decodeAt_le d off.toNat h h2
    have hsz0 : (0 : Int) ≤ (getBoxSize h : Int) := Int.ofNat_nonneg _
    have hsz63 : getBoxSize h < 2 ^ 63 := by omega
    have hcb : ∀ (hh : Header) (ss : FileState),
        entryCb codecFrom codecTo hh ss = some (sampleEntryHandler codecFrom codecTo hh ss) :=
      fun _ _ => rfl
    have hseek : seekTo { data := d, pos := p, log := l } off =
        .ok { data := d, pos := off.toNat, log := l } := by
      unfold seekTo
      rw [if_neg (by omega)]
    have hread := decodeAt_ok d off.toNat h h2 l
    simp only [List.length_cons]
    rw [show rest.length + 1 + 1 = (rest.length + 1) + 1 from rfl]
    rw [forEachBoxAux]
    rw [if_pos (Or.inr h1)]
    by_cases hm : h.type = codecFrom
    · have hhandler := sampleEntryHandler_match codecFrom codecTo h d
        (if v then l ++ [.feInspect h.type off] else l) off.toNat hm (by omega)
      simp only [hseek, hread, logIf_eq, hcb, hhandler, toInt64_of_lt hsz63,
        addInt64_of_mem h0 hsz0 h4]
      simp only [patchChain, if_pos hm]
      exact ih (off + (getBoxSize h : Int)) (writeAt d (off.toNat + 4) codecTo) _ _
        (entryChainOK_writeAt (addInt64 start limit) codecTo (off.toNat + 4) rest d
          (off + (getBoxSize h : Int)) h5 (by omega) (by omega))
    · have hhandler : sampleEntryHandler codecFrom codecTo h
          { data := d, pos := off.toNat + getHeaderSize h,
            log := if v then l ++ [.feInspect h.type off] else l } =
          .ok { data := d, pos := off.toNat + getHeaderSize h,
                log := if v then l ++ [.feInspect h.type off] else l } := by
        unfold sampleEntryHandler
        rw [if_neg hm]
      simp only [hseek, hread, logIf_eq, hcb, hhandler, toInt64_of_lt hsz63,
        addInt64_of_mem h0 hsz0 h4]
      simp only [patchChain, if_neg hm]
      exact ih (off + (getBoxSize h : Int)) d _ _ h5

/-- C7 as amended (corrected): when the destination tag differs from the
source tag and the headers visited by the sample-entry enumeration form a
valid chain (each decodes at its loop offset, is at least as large as its
own header, and the offsets tile the scanned range without wrapping), the
first enumeration rewrites exactly the matching type fields and a second
enumeration over the patched bytes is a no-op — already-replaced entries
carry the destination tag and no longer match.  (Without the chain
condition the claim fails: a patched type field that the next traversal
re-reads as a structural size or type field can make the second full-file
run patch further bytes, as the counterexample shows.) -/
theorem c7_entry_loop_idempotent (v : Bool) (codecFrom codecTo : List Nat) (d : List Nat)
    (chain : List Header) (limit : Int) (p : Nat) (l : List LogEntry)
    (hlen : codecTo.length = 4) (hne : codecTo ≠ codecFrom) (hlim : 0 ≤ limit)
    (hchain : entryChainOK d (addInt64 (p : Int) limit) (p : Int) chain = true) :
    resultData (forEachBox v (entryCb codecFrom codecTo) limit (chain.length + 1)
        { data := d, pos := p, log := l }) =
      some (.ok (patchChain codecFrom codecTo d (p : Int) chain)) ∧
    resultData (forEachBox v (entryCb codecFrom codecTo) limit (chain.length + 1)
        { data := patchChain codecFrom codecTo d (p : Int) chain, pos := p, log := l }) =
      some (.ok (patchChain codecFrom codecTo d (p : Int) chain)) := by
  constructor
  · exact forEachBoxAux_chain v codecFrom codecTo hlen limit (p : Int) hlim chain (p : Int)
      d p l hchain
  · have hch2 := entryChainOK_patchChain_subst (addInt64 (p : Int) limit) codecFrom codecTo
      hlen chain d (p : Int) hchain
    have hrun2 := forEachBoxAux_chain v codecFrom codecTo hlen limit (p : Int) hlim
      (chain.map (substType codecFrom codecTo)) (p : Int)
      (patchChain codecFrom codecTo d (p : Int) chain) p l hch2
    rw [List.length_map] at hrun2
    rw [patchChain_of_nomatch codecFrom codecTo (chain.map (substType codecFrom codecTo))
      (patchChain codecFrom codecTo d (p : Int) chain) (p : Int)
      (substType_map_nomatch codecFrom codecTo hne chain)] at hrun2
    exact hrun2

/-- A 32-byte sample-entry region: one 16-byte `dvhe` entry followed by one
16-byte `free` entry. -/
def entryPairFile : List Nat :=
  [0, 0, 0, 16, 100, 118, 104, 101, 0, 0, 0, 0, 0, 0, 0, 0,
   0, 0, 0, 16, 102, 114, 101, 101, 0, 0, 0, 0, 0, 0, 0, 0]

/-- The header of the `dvhe` entry in `entryPairFile`. -/
def dvheHdr : Header := { size := 16, type := DvheTag, extendedSize := 0 }

/-- C7 witness: the amended theorem applied to `entryPairFile` with the
default tags — the first enumeration patches the `dvhe` entry and the
second leaves the bytes unchanged. -/
theorem c7_entry_loop_idempotent_apply :
    resultData (forEachBox false (entryCb DvheTag Dvh1Tag) 32 3
        { data := entryPairFile, pos := 0, log := [] }) =
      some (.ok (patchChain DvheTag Dvh1Tag entryPairFile 0 [dvheHdr, freeHdr])) ∧
    resultData (forEachBox false (entryCb DvheTag Dvh1Tag) 32 3
        { data := patchChain DvheTag Dvh1Tag entryPairFile 0 [dvheHdr, freeHdr],
          pos := 0, log := [] }) =
      some (.ok (patchChain DvheTag Dvh1Tag entryPairFile 0 [dvheHdr, freeHdr])) :=
  c7_entry_loop_idempotent false DvheTag Dvh1Tag entryPairFile [dvheHdr, freeHdr] 32 0 []
    (by decide) (by decide) (by decide) (by decide)

/-! ### C10: the verbose flag influences only the diagnostic log -/

/-- Two file states with the same bytes and cursor (the log may differ). -/
def sameCore (s1 s2 : FileState) : Prop := s1.data = s2.data ∧ s1.pos = s2.pos

/-- Agreement of traversal outcomes up to the log: identical errors, or
successful states with the same bytes and cursor. -/
def agreeS : Except Err FileState → Except Err FileState → Prop
  | .error e1, .error e2 => e1 = e2
  | .ok a, .ok b => sameCore a b
  | _, _ => False

/-- Agreement of `findHeader` outcomes up to the log. -/
def agreeHS : Except Err (Header × FileState) → Except Err (Header × FileState) → Prop
  | .error e1, .error e2 => e1 = e2
  | .ok (h1, a), .ok (h2, b) => h1 = h2 ∧ sameCore a b
  | _, _ => False

/-- Lift an agreement relation through the fuel layer. -/
def agreeO {γ : Type} (R : γ → γ → Prop) : Option γ → Option γ → Prop
  | none, none => True
  | some x, some y => R x y
  | _, _ => False

theorem seekCur_log (d : List Nat) (p : Nat) (l : List LogEntry) (delta : Int) :
    seekCur { data := d, pos := p, log := l } delta =
      match seekCur { data := d, pos := p, log := [] } delta with
      | .error e => .error e
      | .ok s => .ok { data := s.data, pos := s.pos, log := l } := by
  by_cases hc : (p : Int) + delta < 0
  · simp [seekCur, hc]
  · simp [seekCur, hc]

theorem seekCur_shape (d : List Nat) (p : Nat) (l : List LogEntry) (delta : Int)
    (s : FileState) (hs : seekCur { data := d, pos := p, log := l } delta = .ok s) :
    s = { data := d, pos := ((p : Int) + delta).toNat, log := l } := by
  simp only [seekCur] at hs
  by_cases hc : (p : Int) + delta < 0
  · rw [if_pos hc] at hs
    exact absurd hs (by simp)
  · rw [if_neg hc] at hs
    simp only [Except.ok.injEq] at hs
    exact hs.symm

theorem seekTo_pos (d : List Nat) (p : Nat) (l : List LogEntry) (off : Int) (h0 : 0 ≤ off) :
    seekTo { data := d, pos := p, log := l } off = .ok { data := d, pos := off.toNat, log := l } := by
  simp only [seekTo]
  rw [if_neg (by omega)]

theorem seekTo_neg (d : List Nat) (p : Nat) (l : List LogEntry) (off : Int) (h0 : off < 0) :
    seekTo { data := d, pos := p, log := l } off = .error .negSeek := by
  simp only [seekTo]
  rw [if_pos h0]

/-- The result of the `findHeader` loop is independent of the verbose flag
and of the log already accumulated, up to the log. -/
theorem findHeaderAux_core (v1 v2 : Bool) (tgt : List Nat) (lim : Int) :
    ∀ (fuel : Nat) (off : Int) (d : List Nat) (p : Nat) (l1 l2 : List LogEntry),
    agreeO agreeHS (findHeaderAux v1 tgt lim fuel off { data := d, pos := p, log := l1 })
      (findHeaderAux v2 tgt lim fuel off { data := d, pos := p, log := l2 }) := by
  intro fuel
  induction fuel with
  | zero =>
    intro off d p l1 l2
    simp [findHeaderAux, agreeO]
  | succ n ih =>
    intro off d p l1 l2
    rw [findHeaderAux, findHeaderAux]
    by_cases hcond : lim < 0 ∨ off < lim
    · rw [if_pos hcond, if_pos hcond]
      rw [readBoxHeader_log d p l1, readBoxHeader_log d p l2]
      cases hrb : readBoxHeader { data := d, pos := p, log := [] } with
      | error e => simp [agreeO, agreeHS]
      | ok pr =>
        obtain ⟨h, s⟩ := pr
        obtain ⟨hs, -⟩ := readBoxHeader_ok d p [] h s hrb
        subst hs
        simp only [logIf_eq]
        by_cases hty : h.type = tgt
        · rw [if_pos hty, if_pos hty]
          simp [logIf_eq, agreeO, agreeHS, sameCore]
        · rw [if_neg hty, if_neg hty]
          rw [seekCur_log d (p + getHeaderSize h)
              (if v1 then l1 ++ [LogEntry.findInspect h.type off] else l1) (skipDelta h),
            seekCur_log d (p + getHeaderSize h)
              (if v2 then l2 ++ [LogEntry.findInspect h.type off] else l2) (skipDelta h)]
          cases hsk : seekCur { data := d, pos := p + getHeaderSize h, log := [] }
              (skipDelta h) with
          | error e => simp [agreeO, agreeHS]
          | ok s3 =>
            have hs3 := seekCur_shape d (p + getHeaderSize h) [] (skipDelta h) s3 hsk
            subst hs3
            exact ih _ d _ _ _
    · rw [if_neg hcond, if_neg hcond]
      simp [agreeO, agreeHS]

/-- The result of the `forEachBox` loop is independent of the verbose flag
and the accumulated log, up to the log, whenever its callbacks are. -/
theorem forEachBoxAux_core (v1 v2 : Bool)
    (fn1 fn2 : Header → FileState → Option (Except Err FileState))
    (hfn : ∀ (h : Header) (d : List Nat) (p : Nat) (l1 l2 : List LogEntry),
      agreeO agreeS (fn1 h { data := d, pos := p, log := l1 })
        (fn2 h { data := d, pos := p, log := l2 }))
    (lim start : Int) :
    ∀ (fuel : Nat) (off : Int) (d : List Nat) (p : Nat) (l1 l2 : List LogEntry),
    agreeO agreeS (forEachBoxAux v1 fn1 lim start fuel off { data := d, pos := p, log := l1 })
      (forEachBoxAux v2 fn2 lim start fuel off { data := d, pos := p, log := l2 }) := by
  intro fuel
  induction fuel with
  | zero =>
    intro off d p l1 l2
    simp [forEachBoxAux, agreeO]
  | succ n ih =>
    intro off d p l1 l2
    rw [forEachBoxAux, forEachBoxAux]
    by_cases hcond : lim < 0 ∨ off < addInt64 start lim
    · rw [if_pos hcond, if_pos hcond]
      by_cases hoff : 0 ≤ off
      · simp only [seekTo_pos d p l1 off hoff, seekTo_pos d p l2 off hoff]
        rw [readBoxHeader_log d off.toNat l1, readBoxHeader_log d off.toNat l2]
        cases hrb : readBoxHeader { data := d, pos := off.toNat, log := [] } with
        | error e => simp [agreeO, agreeS]
        | ok pr =>
          obtain ⟨h, s⟩ := pr
          obtain ⟨hs, -⟩ := readBoxHeader_ok d off.toNat [] h s hrb
          subst hs
          simp only [logIf_eq]
          have hcall := hfn h d (off.toNat + getHeaderSize h)
            (if v1 then l1 ++ [.feInspect h.type off] else l1)
            (if v2 then l2 ++ [.feInspect h.type off] else l2)
          cases hr1 : fn1 h { data := d, pos := off.toNat + getHeaderSize h, log := if v1 then l1 ++ [.feInspect h.type off] else l1 } with
          | none =>
            cases hr2 : fn2 h { data := d, pos := off.toNat + getHeaderSize h, log := if v2 then l2 ++ [.feInspect h.type off] else l2 } with
            | none => simp [agreeO]
            | some r2 =>
              rw [hr1, hr2] at hcall
              exact False.elim hcall
          | some r1 =>
            cases hr2 : fn2 h { data := d, pos := off.toNat + getHeaderSize h, log := if v2 then l2 ++ [.feInspect h.type off] else l2 } with
            | none =>
              rw [hr1, hr2] at hcall
              exact False.elim hcall
            | some r2 =>
              rw [hr1, hr2] at hcall
              cases r1 with
              | error e1 =>
                cases r2 with
                | error e2 =>
                  have he : e1 = e2 := hcall
                  subst he
                  exact rfl
                | ok s2 =>
                  exact False.elim hcall
              | ok s1 =>
                cases r2 with
                | error e2 =>
                  exact False.elim hcall
                | ok s2 =>
                  have hcore : s1.data = s2.data ∧ s1.pos = s2.pos := hcall
                  have he1 : s1 = { data := s1.data, pos := s1.pos, log := s1.log } := rfl
                  have he2 : s2 = { data := s2.data, pos := s2.pos, log := s2.log } := rfl
                  rw [he1, he2, hcore.1, hcore.2]
                  exact ih _ s2.data s2.pos s1.log s2.log
      · simp only [seekTo_neg d p l1 off (by omega), seekTo_neg d p l2 off (by omega)]
        simp [agreeO, agreeS]
    · rw [if_neg hcond, if_neg hcond]
      simp [agreeO, agreeS, sameCore]

/-- The sample-entry patcher is independent of the accumulated log, up to
the log. -/
theorem sampleEntryHandler_core (codecFrom codecTo : List Nat) (h : Header)
    (d : List Nat) (p : Nat) (l1 l2 : List LogEntry) :
    agreeS (sampleEntryHandler codecFrom codecTo h { data := d, pos := p, log := l1 })
      (sampleEntryHandler codecFrom codecTo h { data := d, pos := p, log := l2 }) := by
  unfold sampleEntryHandler
  by_cases hm : h.type = codecFrom
  · rw [if_pos hm, if_pos hm]
    rw [seekCur_log d p l1, seekCur_log d p l2]
    cases hsk : seekCur { data := d, pos := p, log := [] } (getHeaderTypeOffset h) with
    | error e => simp [agreeS]
    | ok s3 =>
      have hs3 := seekCur_shape d p [] (getHeaderTypeOffset h) s3 hsk
      subst hs3
      simp [writeBytes, agreeS, sameCore]
  · rw [if_neg hm, if_neg hm]
    simp [agreeS, sameCore]

/-- One step of result composition: both sides are `none`, or identical
wrapped errors, or core-equal successes handed to log-insensitive
continuations. -/
theorem agreeO_step_HS (wrapE : Err → Err)
    (k1 k2 : Header → FileState → Option (Except Err FileState))
    (hk : ∀ (h : Header) (dd : List Nat) (pp : Nat) (ll1 ll2 : List LogEntry),
      agreeO agreeS (k1 h { data := dd, pos := pp, log := ll1 })
        (k2 h { data := dd, pos := pp, log := ll2 }))
    (r1 r2 : Option (Except Err (Header × FileState))) :
    agreeO agreeHS r1 r2 →
    agreeO agreeS
      (match r1 with
        | none => none
        | some (.error e) => some (.error (wrapE e))
        | some (.ok (h, s)) => k1 h s)
      (match r2 with
        | none => none
        | some (.error e) => some (.error (wrapE e))
        | some (.ok (h, s)) => k2 h s) := by
  rcases r1 with _ | (e1 | ⟨h1, s1⟩) <;> rcases r2 with _ | (e2 | ⟨h2, s2⟩) <;> intro hr <;>
    try (exact False.elim hr)
  · exact trivial
  · have he : e1 = e2 := hr
    subst he
    exact rfl
  · have hc : h1 = h2 ∧ s1.data = s2.data ∧ s1.pos = s2.pos := hr
    obtain ⟨hh, hd2, hp2⟩ := hc
    subst hh
    have hs1 : s1 = { data := s2.data, pos := s2.pos, log := s1.log } := by
      rw [← hd2, ← hp2]
    have hs2 : s2 = { data := s2.data, pos := s2.pos, log := s2.log } := rfl
    rw [hs1, hs2]
    exact hk h1 s2.data s2.pos s1.log s2.log

/-- Like `agreeO_step_HS`, for continuations consuming a bare state. -/
theorem agreeO_step_S (wrapE : Err → Err)
    (k1 k2 : FileState → Option (Except Err FileState))
    (hk : ∀ (dd : List Nat) (pp : Nat) (ll1 ll2 : List LogEntry),
      agreeO agreeS (k1 { data := dd, pos := pp, log := ll1 })
        (k2 { data := dd, pos := pp, log := ll2 }))
    (r1 r2 : Option (Except Err FileState)) :
    agreeO agreeS r1 r2 →
    agreeO agreeS
      (match r1 with
        | none => none
        | some (.error e) => some (.error (wrapE e))
        | some (.ok s) => k1 s)
      (match r2 with
        | none => none
        | some (.error e) => some (.error (wrapE e))
        | some (.ok s) => k2 s) := by
  rcases r1 with _ | (e1 | s1) <;> rcases r2 with _ | (e2 | s2) <;> intro hr <;>
    try (exact False.elim hr)
  · exact trivial
  · have he : e1 = e2 := hr
    subst he
    exact rfl
  · have hc : s1.data = s2.data ∧ s1.pos = s2.pos := hr
    obtain ⟨hd2, hp2⟩ := hc
    have hs1 : s1 = { data := s2.data, pos := s2.pos, log := s1.log } := by
      rw [← hd2, ← hp2]
    have hs2 : s2 = { data := s2.data, pos := s2.pos, log := s2.log } := rfl
    rw [hs1, hs2]
    exact hk s2.data s2.pos s1.log s2.log

/-- The per-track handler is independent of the verbose flag and the
accumulated log, up to the log. -/
theorem trakHandler_core (v1 v2 : Bool) (codecFrom codecTo : List Nat) (fuel : Nat)
    (trak : Header) (d : List Nat) (p : Nat) (l1 l2 : List LogEntry) :
    agreeO agreeS (trakHandler v1 codecFrom codecTo fuel trak { data := d, pos := p, log := l1 })
      (trakHandler v2 codecFrom codecTo fuel trak { data := d, pos := p, log := l2 }) := by
  unfold trakHandler
  by_cases htr : trak.type = TrakBoxType
  case neg =>
    rw [if_neg htr, if_neg htr]
    simp [agreeO, agreeS, sameCore]
  rw [if_pos htr, if_pos htr]
  refine agreeO_step_HS _ _ _ ?_ _ _ (findHeaderAux_core v1 v2 MdiaBoxType (skipDelta trak)
    fuel 0 d p l1 l2)
  intro h1 d1 p1 la1 la2
  refine agreeO_step_HS _ _ _ ?_ _ _ (findHeaderAux_core v1 v2 MinfBoxType (skipDelta h1)
    fuel 0 d1 p1 la1 la2)
  intro h2 d2 p2 lb1 lb2
  refine agreeO_step_HS _ _ _ ?_ _ _ (findHeaderAux_core v1 v2 StblBoxType (skipDelta h2)
    fuel 0 d2 p2 lb1 lb2)
  intro h3 d3 p3 lc1 lc2
  refine agreeO_step_HS _ _ _ ?_ _ _ (findHeaderAux_core v1 v2 StsdBoxType (skipDelta h3)
    fuel 0 d3 p3 lc1 lc2)
  intro h4 d4 p4 ld1 ld2
  rw [seekCur_ok d4 p4 ld1 8 (p4 + 8) (by push_cast; omega),
    seekCur_ok d4 p4 ld2 8 (p4 + 8) (by push_cast; omega)]
  have hfe := forEachBoxAux_core v1 v2
    (fun h t => some (sampleEntryHandler codecFrom codecTo h t))
    (fun h t => some (sampleEntryHandler codecFrom codecTo h t))
    (fun h dd pp ll1 ll2 => sampleEntryHandler_core codecFrom codecTo h dd pp ll1 ll2)
    (skipDelta h4) ((p4 + 8 : Nat) : Int) fuel ((p4 + 8 : Nat) : Int) d4 (p4 + 8) ld1 ld2
  refine agreeO_step_S _ _ _ ?_ _ _ hfe
  intro dd pp ll1 ll2
  simp [agreeO, agreeS, sameCore]

/-- `processFile` is independent of the verbose flag, up to the log. -/
theorem processFile_core (v1 v2 : Bool) (codecFrom codecTo : List Nat) (fuel : Nat)
    (data : List Nat) :
    agreeO agreeS (processFile v1 codecFrom codecTo fuel data)
      (processFile v2 codecFrom codecTo fuel data) := by
  unfold processFile
  simp only [seekTo_pos data 0 [] 0 (by omega)]
  refine agreeO_step_HS _ _ _ ?_ _ _ (findHeaderAux_core v1 v2 MoovBoxType (-1)
    fuel 0 data 0 [] [])
  intro h d1 p1 la1 la2
  have hfe := forEachBoxAux_core v1 v2
    (trakHandler v1 codecFrom codecTo fuel) (trakHandler v2 codecFrom codecTo fuel)
    (fun h2 dd pp ll1 ll2 => trakHandler_core v1 v2 codecFrom codecTo fuel h2 dd pp ll1 ll2)
    (skipDelta h) ((p1 : Nat) : Int) fuel ((p1 : Nat) : Int) d1 p1 la1 la2
  refine agreeO_step_S _ _ _ ?_ _ _ hfe
  intro dd pp ll1 ll2
  simp [agreeO, agreeS, sameCore]

/-- C10 (confirmed): for every tag configuration, fuel budget and input
bytes, running `processFile` with the verbose flag on and off produces the
same outcome up to the diagnostic log — both diverge, or both fail with
the identical error, or both succeed with identical file bytes and cursor.
The verbose flag influences only what is printed. -/
theorem c10_verbose_independence (codecFrom codecTo : List Nat) (fuel : Nat)
    (data : List Nat) :
    agreeO agreeS (processFile true codecFrom codecTo fuel data)
      (processFile false codecFrom codecTo fuel data) :=
  processFile_core true false codecFrom codecTo fuel data

end Mp4dovi
